import Mathlib

/-!
# Verification of the petri-js simulation core

A shallow embedding of the petri-js Petri-net simulator core:

* `src/petrinet.js` — the default Place/Transition fire semantics
  (`defaultIsFireable`, `defaultFire`) and the `PetriNet` facade
  (`fire`, `undo`, `redo`).
* `src/actions.js` — the action creators (`init`, `fireTransition`)
  and the three slice reducers (`model`, `marking`, `sequence`).
* The history wrapper (`undoable` of redux-undo, not part of the
  repository) is modelled from the specification of the history
  wrapper: past/present/future stacks with branch invalidation,
  Undo/Redo/ClearHistory handling, and no history entry for actions
  that leave the present value unchanged.

JavaScript objects used as string-keyed maps are embedded as
association lists `List (String × _)`; `obj[k]` becomes `olook`,
yielding `none` for an absent key (JS `undefined`), and `x || 0`
becomes `jsOr0`.  Token counts are embedded as `Int` so that the
negativity check of `defaultFire` is meaningful.
-/

/-- JS object lookup `obj[p]`: first entry with the given key, `none` when
the key is absent (JS `undefined`). -/
def olook {β : Type} : List (String × β) → String → Option β
  | [], _ => none
  | (k, v) :: rest, p => if k = p then some v else olook rest p

/-- `Object.keys` of an association list. -/
def keys {β : Type} (l : List (String × β)) : List String :=
  l.map Prod.fst

/-- JS `x || 0` on a possibly-undefined number. -/
def jsOr0 (o : Option Int) : Int :=
  o.getD 0

/-- JS `a >= b` where either side may be `undefined`: comparisons against
`undefined` are false. -/
def jsGE : Option Int → Option Int → Bool
  | some v, some w => decide (w ≤ v)
  | _, _ => false

/-- A marking: JS object mapping place name to token count. -/
abbrev Marking := List (String × Int)

/-- A transition of the model (`{ name, preconditions, postconditions }`). -/
structure Transition where
  name : String
  preconditions : List (String × Int)
  postconditions : List (String × Int)
deriving DecidableEq

/-- A Petri-net model (`{ places, transitions, m0 }`). -/
structure Model where
  places : List String
  transitions : List Transition
  m0 : Marking
deriving DecidableEq

/-- The two error kinds raised by `defaultFire`:
`'${p}' is precondition of '${t.name}' but doesn't appear in marking`
(UnknownPlaceError) and `'${t.name}' is not fireable` (NotFireableError). -/
inductive FireError where
  | unknownPlace
  | notFireable
deriving DecidableEq

/-- `defaultIsFireable(t, marking)` from src/petrinet.js:
`Object.keys(t.preconditions).every((p) => marking[p] >= t.preconditions[p])`. -/
def defaultIsFireable (t : Transition) (marking : Marking) : Bool :=
  (keys t.preconditions).all
    (fun p => jsGE (olook marking p) (olook t.preconditions p))

/-- The value stored at key `p` by the body of the loop of `defaultFire`:
`(marking[p] || 0) - (pre[p] || 0) + (post[p] || 0)`. -/
def fireVal (t : Transition) (marking : Marking) (p : String) : Int :=
  jsOr0 (olook marking p) - jsOr0 (olook t.preconditions p)
    + jsOr0 (olook t.postconditions p)

/-- The loop `for (const p in marking) { ... }` of `defaultFire`, iterating
over the given list of keys of `marking`.  For each key: first the
`!marking.hasOwnProperty(p)` guard (UnknownPlaceError), then the
assignment `nextMarking[p] = ...`, then the negativity check
(NotFireableError). -/
def defaultFireAux (t : Transition) (marking : Marking) :
    List String → Except FireError Marking
  | [] => Except.ok []
  | p :: rest =>
    if (olook marking p).isNone then Except.error FireError.unknownPlace
    else if fireVal t marking p < 0 then Except.error FireError.notFireable
    else
      match defaultFireAux t marking rest with
      | Except.ok next => Except.ok ((p, fireVal t marking p) :: next)
      | Except.error e => Except.error e

/-- `defaultFire(t, marking)` from src/petrinet.js: builds `nextMarking`
by iterating the keys of `marking`. -/
def defaultFire (t : Transition) (marking : Marking) : Except FireError Marking :=
  defaultFireAux t marking (keys marking)

/-- `true` iff `defaultFire` returns instead of throwing. -/
def fireSucceeds (t : Transition) (marking : Marking) : Bool :=
  match defaultFire t marking with
  | Except.ok _ => true
  | Except.error _ => false

/-- Sum of the token counts of a marking (also used for summing the
weights of a precondition or postcondition map). -/
def sumValues (l : List (String × Int)) : Int :=
  (l.map Prod.snd).sum

-- Basic facts about `olook` and `keys`.

theorem keys_nil {β : Type} : keys ([] : List (String × β)) = [] := rfl

theorem keys_cons {β : Type} (e : String × β) (l : List (String × β)) :
    keys (e :: l) = e.1 :: keys l := rfl

theorem olook_isSome_of_mem_keys {β : Type} {l : List (String × β)} {p : String}
    (h : p ∈ keys l) : ∃ v, olook l p = some v := by
  induction l with
  | nil => simp [keys] at h
  | cons e rest ih =>
    obtain ⟨k, w⟩ := e
    by_cases hk : k = p
    · exact ⟨w, by simp [olook, hk]⟩
    · have hr : p ∈ keys rest := by
        rw [keys_cons] at h
        rcases List.mem_cons.mp h with h | h
        · exact absurd h.symm hk
        · exact h
      rcases ih hr with ⟨v, hv⟩
      exact ⟨v, by simp [olook, hk, hv]⟩

theorem olook_eq_none_of_not_mem {β : Type} {l : List (String × β)} {p : String}
    (h : p ∉ keys l) : olook l p = none := by
  induction l with
  | nil => rfl
  | cons e rest ih =>
    rw [keys_cons] at h
    have h1 : ¬ e.1 = p := fun he => h (by rw [he]; exact List.mem_cons_self _ _)
    have h2 : p ∉ keys rest := fun hm => h (List.mem_cons_of_mem _ hm)
    simp [olook, h1, ih h2]

theorem olook_mem {β : Type} {l : List (String × β)} {p : String} {v : β}
    (h : olook l p = some v) : (p, v) ∈ l := by
  induction l with
  | nil => simp [olook] at h
  | cons e rest ih =>
    obtain ⟨k, w⟩ := e
    by_cases hk : k = p
    · simp [olook, hk] at h
      rw [hk, h]
      exact List.mem_cons_self _ _
    · simp [olook, hk] at h
      exact List.mem_cons_of_mem _ (ih h)

theorem mem_keys_of_olook {β : Type} {l : List (String × β)} {p : String} {v : β}
    (h : olook l p = some v) : p ∈ keys l := by
  have hm := olook_mem h
  simp only [keys, List.mem_map]
  exact ⟨(p, v), hm, rfl⟩

theorem olook_of_mem_nodup {β : Type} {l : List (String × β)} {p : String} {v : β}
    (hnd : (keys l).Nodup) (h : (p, v) ∈ l) : olook l p = some v := by
  induction l with
  | nil => simp at h
  | cons e rest ih =>
    rw [keys_cons] at hnd
    rcases List.nodup_cons.mp hnd with ⟨hni, hnd2⟩
    rcases List.mem_cons.mp h with h | h
    · rw [← h]
      simp [olook]
    · have hpk : p ∈ keys rest := by
        simp only [keys, List.mem_map]
        exact ⟨(p, v), h, rfl⟩
      have hne : ¬ e.1 = p := fun he => hni (by rw [he]; exact hpk)
      simp [olook, hne]
      exact ih hnd2 h

-- Characterisation of the `defaultFire` loop.

theorem fireAux_ok_elim {t : Transition} {m : Marking} {l : List String}
    {r : Marking} (h : defaultFireAux t m l = Except.ok r) :
    r = l.map (fun p => (p, fireVal t m p)) ∧ ∀ p ∈ l, 0 ≤ fireVal t m p := by
  induction l generalizing r with
  | nil =>
    simp [defaultFireAux] at h
    simp [← h]
  | cons p rest ih =>
    by_cases h1 : (olook m p).isNone
    · simp [defaultFireAux, h1] at h
    · by_cases h2 : fireVal t m p < 0
      · simp [defaultFireAux, h1, h2] at h
      · rcases hrest : defaultFireAux t m rest with e | next
        · rw [defaultFireAux, if_neg h1, if_neg h2, hrest] at h
          simp at h
        · rw [defaultFireAux, if_neg h1, if_neg h2, hrest] at h
          simp at h
          rcases ih hrest with ⟨hmap, hpos⟩
          constructor
          · rw [← h, hmap]
            simp
          · intro q hq
            rcases List.mem_cons.mp hq with hq | hq
            · rw [hq]
              omega
            · exact hpos q hq

theorem fireAux_ok_intro {t : Transition} {m : Marking} {l : List String}
    (hsome : ∀ p ∈ l, p ∈ keys m) (hpos : ∀ p ∈ l, 0 ≤ fireVal t m p) :
    defaultFireAux t m l = Except.ok (l.map (fun p => (p, fireVal t m p))) := by
  induction l with
  | nil => rfl
  | cons p rest ih =>
    rcases olook_isSome_of_mem_keys (hsome p (List.mem_cons_self _ _)) with ⟨v, hv⟩
    have h1 : ¬ (olook m p).isNone = true := by simp [hv]
    have h2 : ¬ fireVal t m p < 0 := by
      have := hpos p (List.mem_cons_self _ _)
      omega
    rw [defaultFireAux, if_neg h1, if_neg h2,
      ih (fun q hq => hsome q (List.mem_cons_of_mem _ hq))
        (fun q hq => hpos q (List.mem_cons_of_mem _ hq))]
    simp

theorem fireAux_error_elim {t : Transition} {m : Marking} {l : List String}
    {e : FireError} (h : defaultFireAux t m l = Except.error e)
    (hsome : ∀ p ∈ l, p ∈ keys m) : e = FireError.notFireable := by
  induction l with
  | nil => simp [defaultFireAux] at h
  | cons p rest ih =>
    rcases olook_isSome_of_mem_keys (hsome p (List.mem_cons_self _ _)) with ⟨v, hv⟩
    have h1 : ¬ (olook m p).isNone = true := by simp [hv]
    by_cases h2 : fireVal t m p < 0
    · rw [defaultFireAux, if_neg h1, if_pos h2] at h
      exact (Except.error.inj h).symm
    · rcases hrest : defaultFireAux t m rest with e2 | next
      · rw [defaultFireAux, if_neg h1, if_neg h2, hrest] at h
        have he : e2 = e := Except.error.inj h
        rw [he] at hrest
        exact ih hrest (fun q hq => hsome q (List.mem_cons_of_mem _ hq))
      · rw [defaultFireAux, if_neg h1, if_neg h2, hrest] at h
        simp at h

-- Sums over lists of integers.

theorem sum_map_congr {α : Type} {l : List α} {f g : α → Int}
    (h : ∀ x ∈ l, f x = g x) : (l.map f).sum = (l.map g).sum := by
  induction l with
  | nil => rfl
  | cons a rest ih =>
    simp only [List.map_cons, List.sum_cons]
    rw [h a (List.mem_cons_self _ _),
      ih (fun x hx => h x (List.mem_cons_of_mem _ hx))]

theorem sum_map_zero {α : Type} {l : List α} {f : α → Int}
    (h : ∀ x ∈ l, f x = 0) : (l.map f).sum = 0 := by
  induction l with
  | nil => rfl
  | cons a rest ih =>
    simp only [List.map_cons, List.sum_cons]
    rw [h a (List.mem_cons_self _ _),
      ih (fun x hx => h x (List.mem_cons_of_mem _ hx))]
    simp

theorem sum_map_add {α : Type} (l : List α) (f g : α → Int) :
    (l.map (fun x => f x + g x)).sum = (l.map f).sum + (l.map g).sum := by
  induction l with
  | nil => rfl
  | cons a rest ih =>
    simp only [List.map_cons, List.sum_cons, ih]
    ring

theorem sum_map_sub_add {α : Type} (l : List α) (f g h : α → Int) :
    (l.map (fun x => f x - g x + h x)).sum
      = (l.map f).sum - (l.map g).sum + (l.map h).sum := by
  induction l with
  | nil => rfl
  | cons a rest ih =>
    simp only [List.map_cons, List.sum_cons, ih]
    ring

theorem sum_ite_single {l : List String} {a : String} (u : Int)
    (hnd : l.Nodup) (ha : a ∈ l) :
    (l.map (fun p => if p = a then u else 0)).sum = u := by
  induction l with
  | nil => simp at ha
  | cons b rest ih =>
    rcases List.nodup_cons.mp hnd with ⟨hb, hnd2⟩
    simp only [List.map_cons, List.sum_cons]
    rcases List.mem_cons.mp ha with ha | ha
    · rw [← ha, if_pos rfl]
      have hz : ∀ x ∈ rest, (fun p => if p = a then u else 0) x = 0 := by
        intro x hx
        have hxa : ¬ x = a := fun he => hb (by rw [← ha, ← he]; exact hx)
        simp [hxa]
      rw [sum_map_zero hz]
      simp
    · have hne : ¬ b = a := fun he => hb (he ▸ ha)
      rw [if_neg hne, ih hnd2 ha]
      simp

/-- Summing `w[p] || 0` over a duplicate-free list of keys covering all
keys of `w` gives the sum of the values of `w`. -/
theorem sum_olook_eq {w : List (String × Int)} {l : List String}
    (hl : l.Nodup) (hw : (keys w).Nodup) (hsub : ∀ p ∈ keys w, p ∈ l) :
    (l.map (fun p => jsOr0 (olook w p))).sum = sumValues w := by
  induction w with
  | nil =>
    rw [sum_map_zero (by intro x hx; simp [olook, jsOr0])]
    rfl
  | cons e rest ih =>
    obtain ⟨a, u⟩ := e
    rw [keys_cons] at hw hsub
    rcases List.nodup_cons.mp hw with ⟨hna, hnd2⟩
    have hstep : ∀ p ∈ l,
        jsOr0 (olook ((a, u) :: rest) p)
          = jsOr0 (olook rest p) + (if p = a then u else 0) := by
      intro p hp
      by_cases hpa : p = a
      · subst hpa
        have hnone : olook rest p = none := olook_eq_none_of_not_mem hna
        simp [olook, hnone, jsOr0]
      · have hne : ¬ a = p := fun he => hpa he.symm
        simp [olook, hne, hpa]
    rw [sum_map_congr hstep, sum_map_add,
      ih hnd2 (fun p hp => hsub p (List.mem_cons_of_mem _ hp)),
      sum_ite_single u hl (hsub a (List.mem_cons_self _ _))]
    simp [sumValues]
    ring

-- Facts about `defaultIsFireable`.

theorem isFireable_olook {t : Transition} {m : Marking} {p : String}
    (h : defaultIsFireable t m = true) (hp : p ∈ keys t.preconditions) :
    ∃ v w, olook m p = some v ∧ olook t.preconditions p = some w ∧ w ≤ v := by
  have hall := List.all_eq_true.mp h p hp
  rcases olook_isSome_of_mem_keys hp with ⟨w, hw⟩
  rw [hw] at hall
  rcases hm : olook m p with _ | v
  · rw [hm] at hall
    simp [jsGE] at hall
  · rw [hm] at hall
    simp [jsGE] at hall
    exact ⟨v, w, rfl, hw, hall⟩

theorem isFireable_keys_sub {t : Transition} {m : Marking}
    (h : defaultIsFireable t m = true) :
    ∀ p ∈ keys t.preconditions, p ∈ keys m := by
  intro p hp
  rcases isFireable_olook h hp with ⟨v, _, hv, _, _⟩
  exact mem_keys_of_olook hv

/-- `olook` on a list of entries built from a key list by a key-determined
value function. -/
theorem olook_map_keyfun {l : List String} {g : String → Int} {p : String}
    (hp : p ∈ l) : olook (l.map (fun q => (q, g q))) p = some (g p) := by
  induction l with
  | nil => simp at hp
  | cons a rest ih =>
    by_cases ha : a = p
    · simp [olook, ha]
    · rcases List.mem_cons.mp hp with hp | hp
      · exact absurd hp.symm ha
      · simp [olook, ha, ih hp]

theorem keys_map_keyfun (l : List String) (g : String → Int) :
    keys (l.map (fun q => (q, g q))) = l := by
  simp only [keys, List.map_map]
  have hc : (Prod.fst ∘ fun q => (q, g q)) = fun (q : String) => q := rfl
  rw [hc, List.map_id']

theorem sumValues_map_keyfun (l : List String) (g : String → Int) :
    sumValues (l.map (fun q => (q, g q))) = (l.map g).sum := by
  simp [sumValues, List.map_map]
  rfl

-- Concrete data for the claim witnesses and counterexamples.

def c1t : Transition := ⟨"t1", [("p", 1)], [("q", 2)]⟩

def c1m : Marking := [("p", 3), ("q", 1)]

def c1next : Marking := [("p", 2), ("q", 3)]

def c2t : Transition := ⟨"t1", [("p", 1)], []⟩

def c4t : Transition := ⟨"t", [("q", 1)], []⟩

def c4m : Marking := [("p", 1)]

def c7t : Transition := ⟨"t", [], [("q", 5)]⟩

def c7m : Marking := [("p", 1)]

def c10t : Transition := ⟨"t1", [("p", 1)], [("q", 1)]⟩

def c10m : Marking := [("p", 2), ("q", 0)]

/-- Claim C2: the default fire function never returns a marking with a negative
entry; whenever the value computed for some place is negative it fails
with NotFireableError instead of returning. -/
theorem c2_fire_nonneg (t : Transition) (m : Marking) :
    (∀ next, defaultFire t m = Except.ok next → ∀ p v, (p, v) ∈ next → 0 ≤ v)
    ∧ ∀ p ∈ keys m, fireVal t m p < 0 →
        defaultFire t m = Except.error FireError.notFireable := by
  constructor
  · intro next h p v hmem
    rcases fireAux_ok_elim h with ⟨hmap, hpos⟩
    rw [hmap] at hmem
    rcases List.mem_map.mp hmem with ⟨q, hq, hqe⟩
    injection hqe with h1 h2
    rw [← h2]
    exact hpos q hq
  · intro p hp hneg
    rcases hres : defaultFire t m with e | r
    · have he := fireAux_error_elim hres (fun q hq => hq)
      rw [he]
    · exfalso
      rcases fireAux_ok_elim hres with ⟨_, hpos⟩
      have := hpos p hp
      omega

/-- Witness for C2 at concrete inputs: a successful fire has non-negative
entries, and an overdraw fails with NotFireableError. -/
theorem c2_witness :
    (0 : Int) ≤ 2
    ∧ defaultFire c2t [("p", 0)] = Except.error FireError.notFireable :=
  ⟨(c2_fire_nonneg c2t [("p", 3)]).1 [("p", 2)] rfl "p" 2 (by decide),
   (c2_fire_nonneg c2t [("p", 0)]).2 "p" (by decide) (by decide)⟩

/-- Claim C4 (code bug): a transition whose precondition references the place
`q`, absent from the marking, does NOT make `defaultFire` fail with
UnknownPlaceError — the `hasOwnProperty` guard iterates the marking's own
keys and can never fire, so the missing precondition is silently ignored
and firing succeeds (even though `defaultIsFireable` is false). -/
theorem c4_unknown_place_unchecked :
    defaultFire c4t c4m = Except.ok [("p", 1)]
    ∧ olook c4m "q" = none
    ∧ defaultIsFireable c4t c4m = false :=
  ⟨rfl, rfl, by decide⟩

/-- Claim C7: when the default fire function returns, the keys of the returned
marking are exactly the keys of the input marking (in order); in
particular no place outside the input marking appears in the result. -/
theorem c7_fire_preserves_keys (t : Transition) (m : Marking) (next : Marking)
    (h : defaultFire t m = Except.ok next) :
    keys next = keys m ∧ ∀ q, q ∉ keys m → q ∉ keys next := by
  have h1 := (fireAux_ok_elim h).1
  have hkeys : keys next = keys m := by
    rw [h1, keys_map_keyfun]
  exact ⟨hkeys, fun q hq hqn => hq (hkeys ▸ hqn)⟩

/-- Witness for C7: a postcondition on a place `q` missing from the marking
is dropped; the keys of the result still equal the keys of the marking. -/
theorem c7_witness :
    keys [(("p" : String), (1 : Int))] = keys c7m
    ∧ "q" ∉ keys [(("p" : String), (1 : Int))] :=
  ⟨(c7_fire_preserves_keys c7t c7m [("p", 1)] rfl).1,
   (c7_fire_preserves_keys c7t c7m [("p", 1)] rfl).2 "q" (by decide)⟩

/-- Claim C10: with non-negative precondition and postcondition weights, all
precondition places present in the marking, `defaultIsFireable` true and a
non-negative marking, `defaultFire` returns without raising any error. -/
theorem c10_fireable_fire_succeeds (t : Transition) (m : Marking)
    (hpreW : ∀ e ∈ t.preconditions, 0 ≤ e.2)
    (hpostW : ∀ e ∈ t.postconditions, 0 ≤ e.2)
    (hkeys : ∀ p ∈ keys t.preconditions, p ∈ keys m)
    (hf : defaultIsFireable t m = true)
    (hm : ∀ e ∈ m, 0 ≤ e.2) :
    fireSucceeds t m = true := by
  have hpos : ∀ p ∈ keys m, 0 ≤ fireVal t m p := by
    intro p hp
    rcases olook_isSome_of_mem_keys hp with ⟨v, hv⟩
    have hv0 : 0 ≤ v := hm (p, v) (olook_mem hv)
    have hpost : 0 ≤ jsOr0 (olook t.postconditions p) := by
      rcases hpo : olook t.postconditions p with _ | w
      · simp [jsOr0]
      · simpa [jsOr0] using hpostW (p, w) (olook_mem hpo)
    by_cases hpre : p ∈ keys t.preconditions
    · rcases isFireable_olook hf hpre with ⟨v2, w, hv2, hw, hle⟩
      rw [hv] at hv2
      injection hv2 with hveq
      unfold fireVal
      rw [hv, hw]
      simp only [jsOr0, Option.getD_some] at hpost ⊢
      omega
    · unfold fireVal
      rw [hv, olook_eq_none_of_not_mem hpre]
      simp only [jsOr0, Option.getD_some, Option.getD_none] at hpost ⊢
      omega
  have hok := fireAux_ok_intro (fun p hp => hp) hpos
  have h2 : defaultFire t m
      = Except.ok ((keys m).map (fun p => (p, fireVal t m p))) := hok
  simp [fireSucceeds, h2]

/-- Witness for C10 at a concrete fireable transition. -/
theorem c10_witness : fireSucceeds c10t c10m = true :=
  c10_fireable_fire_succeeds c10t c10m (by decide) (by decide) (by decide)
    (by decide) (by decide)

/-- Claim C1 counterexample: a transition with empty preconditions (hence
fireable) whose postcondition references a place absent from the marking.
The fire succeeds, but the sum of the returned marking differs from
`sum(m) - sum(pre) + sum(post)`: the increase on the absent place is
dropped. -/
theorem c1_counterexample :
    defaultIsFireable ⟨"t", [], [("q", 1)]⟩ [("p", 0)] = true
    ∧ defaultFire ⟨"t", [], [("q", 1)]⟩ [("p", 0)] = Except.ok [("p", 0)]
    ∧ ¬ (sumValues [("p", 0)] = sumValues [("p", 0)]
          - sumValues ([] : List (String × Int)) + sumValues [("q", 1)]) :=
  ⟨by decide, rfl, by decide⟩

/-- Claim C1 (amended): whenever the default fire function returns, for
every place `p` present in `m` the returned marking satisfies
`next[p] = m[p] - pre[p] + post[p]` (with 0 defaults); and if
additionally `isFireable(t, m)` holds and every postcondition place is
present in `m` (keys being duplicate-free, as for JS objects), then
`sum(next) = sum(m) - sum(pre) + sum(post)`. -/
theorem c1_conservation_amended (t : Transition) (m : Marking) (next : Marking)
    (hok : defaultFire t m = Except.ok next) :
    (∀ p v, olook m p = some v →
      olook next p = some (v - jsOr0 (olook t.preconditions p)
        + jsOr0 (olook t.postconditions p)))
    ∧ ((keys m).Nodup → (keys t.preconditions).Nodup →
        (keys t.postconditions).Nodup →
        defaultIsFireable t m = true →
        (∀ p ∈ keys t.postconditions, p ∈ keys m) →
        sumValues next = sumValues m - sumValues t.preconditions
          + sumValues t.postconditions) := by
  have h1 := (fireAux_ok_elim hok).1
  constructor
  · intro p v hv
    rw [h1, olook_map_keyfun (mem_keys_of_olook hv)]
    unfold fireVal
    rw [hv]
    simp [jsOr0]
  · intro hndm hndpre hndpost hf hpost
    rw [h1, sumValues_map_keyfun]
    unfold fireVal
    rw [sum_map_sub_add (keys m) (fun p => jsOr0 (olook m p))
      (fun p => jsOr0 (olook t.preconditions p))
      (fun p => jsOr0 (olook t.postconditions p))]
    rw [sum_olook_eq hndm hndm (fun p hp => hp),
      sum_olook_eq hndm hndpre (isFireable_keys_sub hf),
      sum_olook_eq hndm hndpost hpost]

/-- Witness for the amended C1 at a concrete fireable transition with all
postcondition places present. -/
theorem c1_witness :
    olook c1next "p" = some (3 - jsOr0 (olook c1t.preconditions "p")
      + jsOr0 (olook c1t.postconditions "p"))
    ∧ sumValues c1next = sumValues c1m - sumValues c1t.preconditions
        + sumValues c1t.postconditions :=
  ⟨(c1_conservation_amended c1t c1m c1next rfl).1 "p" 3 (by decide),
   (c1_conservation_amended c1t c1m c1next rfl).2 (by decide) (by decide)
     (by decide) (by decide) (by decide)⟩

/-- A binding: semantics-specific opaque data, `none` embedding JS `null`
(the default when no `chooseBinding` is configured). -/
abbrev Binding := Option Nat

/-- A JS value stored in a fired-sequence entry. -/
inductive JsVal where
  | str (s : String)
  | bind (b : Binding)
deriving DecidableEq

/-- A fired-sequence entry: the object literal built by the `sequence`
reducer, embedded with its JS keys so that the shape of the entry is
observable. -/
abbrev SeqEntry := List (String × JsVal)

/-- The fired-sequence slice value. -/
abbrev FiredSeq := List SeqEntry

/-- The actions dispatched to the store: `INIT` and `FIRE` from
src/actions.js, plus the redux-undo history commands dispatched by the
facade (`undo()`, `redo()`) and by the constructor (`clearHistory()`). -/
inductive StoreAction where
  | init (model : Model)
  | fire (transition : Transition) (binding : Binding) (nextMarking : Marking)
  | undo
  | redo
  | clearHistory
deriving DecidableEq

/-- `true` exactly on the redux-undo history commands. -/
def isHistoryAction : StoreAction → Bool
  | StoreAction.undo => true
  | StoreAction.redo => true
  | StoreAction.clearHistory => true
  | _ => false

/-- `fireTransition(transition, marking, binding, fireFunction)` from
src/actions.js: the FIRE action creator.  It computes `nextMarking`
eagerly by calling `fireFunction`; when the fire function throws, the
exception propagates out of the action creator (`Except.error`) and no
action is produced. -/
def fireTransition (transition : Transition) (marking : Marking)
    (binding : Binding)
    (fireFunction : Transition → Marking → Binding → Except FireError Marking) :
    Except FireError StoreAction :=
  match fireFunction transition marking binding with
  | Except.ok nextMarking =>
      Except.ok (StoreAction.fire transition binding nextMarking)
  | Except.error e => Except.error e

/-- The `model` slice reducer from src/reducers.js. -/
def modelReducer (state : Model) (action : StoreAction) : Model :=
  match action with
  | StoreAction.init m => m
  | _ => state

/-- The `marking` slice reducer from src/reducers.js. -/
def markingReducer (state : Marking) (action : StoreAction) : Marking :=
  match action with
  | StoreAction.init m => m.m0
  | StoreAction.fire _ _ nextMarking => nextMarking
  | _ => state

/-- The `sequence` slice reducer from src/reducers.js: on INIT reset to
`[]`; on FIRE append the object
`{ transition: action.payload.transition.name, binding: action.payload.binding }`;
otherwise identity. -/
def sequenceReducer (state : FiredSeq) (action : StoreAction) : FiredSeq :=
  match action with
  | StoreAction.init _ => []
  | StoreAction.fire t b _ =>
      state ++ [[("transition", JsVal.str t.name), ("binding", JsVal.bind b)]]
  | _ => state

/-- A history frame.  Modelled from the spec: `{ past, present, future }`
where the last entry of `past` is the most recent prior value. -/
structure History (α : Type) where
  past : List α
  present : α
  future : List α
deriving DecidableEq

/-- Modelled from the spec: Undo pops the last entry of `past` into
`present`, pushing the old `present` onto the front of `future`; no-op
when `past` is empty. -/
def hUndo {α : Type} (h : History α) : History α :=
  match h.past.getLast? with
  | none => h
  | some x => ⟨h.past.dropLast, x, h.present :: h.future⟩

/-- Modelled from the spec: Redo pops the first entry of `future` into
`present`, pushing the old `present` onto `past`; no-op when `future` is
empty. -/
def hRedo {α : Type} (h : History α) : History α :=
  match h.future with
  | [] => h
  | x :: rest => ⟨h.past ++ [h.present], x, rest⟩

/-- The history wrapper `undoable(R)` (redux-undo; not in the repository).
Modelled from the spec: the missing wrapper maintains `{past, present,
future}`; on any action other than Undo/Redo/ClearHistory it computes
`newPresent = R(present, action)` and, if it differs from `present`,
pushes the old `present` onto `past` and clears `future`; if unchanged
the state is unchanged.  ClearHistory empties `past` and `future`,
retaining `present`. -/
def undoable {α : Type} [DecidableEq α] (R : α → StoreAction → α)
    (h : History α) (action : StoreAction) : History α :=
  match action with
  | StoreAction.undo => hUndo h
  | StoreAction.redo => hRedo h
  | StoreAction.clearHistory => ⟨[], h.present, []⟩
  | _ =>
    let newPresent := R h.present action
    if newPresent = h.present then h
    else ⟨h.past ++ [h.present], newPresent, []⟩

/-- The whole store state:
`combineReducers({ model, marking: undoable(marking), sequence: undoable(sequence) })`. -/
structure StoreState where
  model : Model
  marking : History Marking
  sequence : History FiredSeq
deriving DecidableEq

/-- One synchronous dispatch: every slice reducer receives the action. -/
def storeStep (s : StoreState) (action : StoreAction) : StoreState :=
  ⟨modelReducer s.model action,
   undoable markingReducer s.marking action,
   undoable sequenceReducer s.sequence action⟩

/-- The default state of the `model` reducer
(`{ places: [], transitions: [], m0: {} }`). -/
def initialModel : Model := ⟨[], [], []⟩

/-- The store right after `createStore(reducers)`: every slice holds its
reducer's default, with empty histories. -/
def emptyStore : StoreState := ⟨initialModel, ⟨[], [], []⟩, ⟨[], [], []⟩⟩

/-- The store as set up by the `PetriNet` constructor:
`dispatch(init(model))` followed by `dispatch(ActionCreators.clearHistory())`. -/
def initStore (model : Model) : StoreState :=
  storeStep (storeStep emptyStore (StoreAction.init model)) StoreAction.clearHistory

/-- The fire-semantics triple held by the facade; `chooseBinding` is
absent (`null`) by default. -/
structure FireSemantics where
  fire : Transition → Marking → Binding → Except FireError Marking
  chooseBinding : Option (Transition → Marking → Binding)

/-- The default semantics: `defaultFire` (which ignores the binding) and
no `chooseBinding`. -/
def defaultSem : FireSemantics :=
  ⟨fun t m _ => defaultFire t m, none⟩

/-- The binding chosen by `PetriNet.fire`: `chooseBinding(t, marking)`
when configured, else `null`. -/
def chosenBinding (sem : FireSemantics) (t : Transition) (m : Marking) :
    Binding :=
  match sem.chooseBinding with
  | some f => f t m
  | none => none

/-- `PetriNet.fire(transition)` from src/petrinet.js: reads the present
marking, chooses a binding, builds the FIRE action via `fireTransition`
and dispatches it.  When the fire function throws, the exception
propagates to the caller and nothing is dispatched; the result pairs the
outcome with the store state after the call. -/
def fireDispatch (sem : FireSemantics) (s : StoreState) (t : Transition) :
    Except FireError Unit × StoreState :=
  match fireTransition t s.marking.present
      (chosenBinding sem t s.marking.present) sem.fire with
  | Except.ok a => (Except.ok (), storeStep s a)
  | Except.error e => (Except.error e, s)

/-- A run of successive `fire` calls, all required to succeed. -/
def fireMany (sem : FireSemantics) (s : StoreState) :
    List Transition → Option StoreState
  | [] => some s
  | t :: rest =>
    match fireDispatch sem s t with
    | (Except.ok _, s2) => fireMany sem s2 rest
    | (Except.error _, _) => none

/-- `undo()` dispatched `n` times. -/
def storeUndoN : Nat → StoreState → StoreState
  | 0, s => s
  | n + 1, s => storeUndoN n (storeStep s StoreAction.undo)

/-- `redo()` dispatched `n` times. -/
def storeRedoN : Nat → StoreState → StoreState
  | 0, s => s
  | n + 1, s => storeRedoN n (storeStep s StoreAction.redo)

/-- `hUndo` iterated. -/
def hUndoN {α : Type} : Nat → History α → History α
  | 0, h => h
  | n + 1, h => hUndoN n (hUndo h)

/-- `hRedo` iterated. -/
def hRedoN {α : Type} : Nat → History α → History α
  | 0, h => h
  | n + 1, h => hRedoN n (hRedo h)

-- Iterated undo/redo over a history frame.

theorem headD_append {α : Type} (q : List α) (x c : α) :
    (q ++ [x]).headD c = q.headD x := by
  cases q <;> rfl

theorem tail_concat_ne {α : Type} (l : List α) (c : α) (h : l ≠ []) :
    (l ++ [c]).tail = l.tail ++ [c] := by
  cases l with
  | nil => exact absurd rfl h
  | cons y l2 => rfl

theorem getLastD_concat2 {α : Type} (l : List α) (a d : α) :
    (l ++ [a]).getLastD d = a := by
  induction l generalizing d with
  | nil => rfl
  | cons y l2 ih =>
    rw [List.cons_append, List.getLastD_cons]
    exact ih y

theorem hUndo_concat {α : Type} (q : List α) (x c : α) (f : List α) :
    hUndo ⟨q ++ [x], c, f⟩ = ⟨q, x, c :: f⟩ := by
  simp [hUndo, List.getLast?_concat, List.dropLast_concat]

theorem hUndo_empty {α : Type} (c : α) (f : List α) :
    hUndo ⟨[], c, f⟩ = ⟨[], c, f⟩ := rfl

theorem hUndoN_empty_past {α : Type} (n : Nat) (c : α) (f : List α) :
    hUndoN n ⟨[], c, f⟩ = ⟨[], c, f⟩ := by
  induction n with
  | zero => rfl
  | succ n ih =>
    rw [hUndoN, hUndo_empty]
    exact ih

theorem hUndoN_add {α : Type} (a b : Nat) (h : History α) :
    hUndoN (a + b) h = hUndoN b (hUndoN a h) := by
  induction a generalizing h with
  | zero => rw [Nat.zero_add]; rfl
  | succ a ih =>
    have hr : a + 1 + b = (a + b) + 1 := by omega
    rw [hr, hUndoN, ih, hUndoN]

theorem hUndoN_exhaust {α : Type} (p : List α) (c : α) (f : List α) :
    hUndoN p.length ⟨p, c, f⟩ = ⟨[], p.headD c, (p ++ [c]).tail ++ f⟩ := by
  induction p using List.reverseRecOn generalizing c f with
  | nil => rfl
  | append_singleton q x ih =>
    have hl : (q ++ [x]).length = q.length + 1 := by simp
    rw [hl, hUndoN, hUndo_concat, ih]
    rw [headD_append, tail_concat_ne (q ++ [x]) c (by simp), List.append_assoc]
    rfl

theorem hUndoN_ge {α : Type} (n : Nat) (p : List α) (c : α) (f : List α)
    (h : p.length ≤ n) :
    hUndoN n ⟨p, c, f⟩ = ⟨[], p.headD c, (p ++ [c]).tail ++ f⟩ := by
  obtain ⟨j, hj⟩ := Nat.exists_eq_add_of_le h
  rw [hj, hUndoN_add, hUndoN_exhaust, hUndoN_empty_past]

theorem hRedo_empty {α : Type} (p : List α) (c : α) :
    hRedo ⟨p, c, []⟩ = ⟨p, c, []⟩ := rfl

theorem hRedoN_empty_future {α : Type} (n : Nat) (p : List α) (c : α) :
    hRedoN n ⟨p, c, []⟩ = ⟨p, c, []⟩ := by
  induction n with
  | zero => rfl
  | succ n ih =>
    rw [hRedoN, hRedo_empty]
    exact ih

theorem hRedoN_ge {α : Type} (f : List α) (p : List α) (c : α) (n : Nat)
    (h : f.length ≤ n) :
    hRedoN n ⟨p, c, f⟩ = ⟨p ++ (c :: f).dropLast, f.getLastD c, []⟩ := by
  induction f generalizing p c n with
  | nil =>
    rw [hRedoN_empty_future]
    simp
  | cons x f2 ih =>
    cases n with
    | zero => simp at h
    | succ n =>
      have hred : hRedo ⟨p, c, x :: f2⟩ = ⟨p ++ [c], x, f2⟩ := rfl
      rw [hRedoN, hred, ih (p ++ [c]) x n (by simpa using h)]
      have hd : (c :: x :: f2).dropLast = c :: (x :: f2).dropLast := rfl
      rw [hd, List.getLastD_cons, List.append_assoc]
      rfl

/-- The invariant maintained by the marking and sequence slices along a
run of `n` dispatched fires after init: no redo branch, at most `n`
history entries, and the oldest value (the head of `past ++ [present]`)
is the initial one. -/
def HistInv {α : Type} (a0 : α) (n : Nat) (h : History α) : Prop :=
  h.future = [] ∧ h.past.length ≤ n ∧ h.past.headD h.present = a0

theorem histInv_mono {α : Type} {a0 : α} {n n2 : Nat} {h : History α}
    (inv : HistInv a0 n h) (hle : n ≤ n2) : HistInv a0 n2 h :=
  ⟨inv.1, le_trans inv.2.1 hle, inv.2.2⟩

theorem histInv_step {α : Type} [DecidableEq α] {a0 : α} {n : Nat}
    {h : History α} (R : α → StoreAction → α) (t : Transition) (b : Binding)
    (mk : Marking) (inv : HistInv a0 n h) :
    HistInv a0 (n + 1) (undoable R h (StoreAction.fire t b mk)) := by
  have hred : undoable R h (StoreAction.fire t b mk)
      = if R h.present (StoreAction.fire t b mk) = h.present then h
        else ⟨h.past ++ [h.present],
          R h.present (StoreAction.fire t b mk), []⟩ := rfl
  rw [hred]
  by_cases he : R h.present (StoreAction.fire t b mk) = h.present
  · rw [if_pos he]
    exact histInv_mono inv (by omega)
  · rw [if_neg he]
    refine ⟨rfl, ?_, ?_⟩
    · simp only [List.length_append, List.length_cons, List.length_nil]
      have := inv.2.1
      omega
    · show (h.past ++ [h.present]).headD _ = a0
      rw [headD_append]
      exact inv.2.2

/-- Exhausting the history with `n` undos reaches the initial value, and
`n` redos from there restore the present. -/
theorem histInv_travel {α : Type} {a0 : α} {n : Nat} {h : History α}
    (inv : HistInv a0 n h) :
    (hUndoN n h).present = a0
    ∧ (hRedoN n (hUndoN n h)).present = h.present := by
  obtain ⟨p, c, f⟩ := h
  obtain ⟨hf, hlen, hhead⟩ := inv
  have hf2 : f = [] := hf
  subst hf2
  have hlen2 : p.length ≤ n := hlen
  rw [hUndoN_ge n p c [] hlen2, List.append_nil]
  refine ⟨hhead, ?_⟩
  have hlt : ((p ++ [c]).tail).length ≤ n := by
    simp only [List.length_tail, List.length_append, List.length_cons,
      List.length_nil]
    omega
  rw [hRedoN_ge _ _ _ n hlt]
  show ((p ++ [c]).tail).getLastD (p.headD c) = c
  cases p with
  | nil => rfl
  | cons y p2 =>
    show ((p2 ++ [c])).getLastD y = c
    exact getLastD_concat2 p2 c y

-- Store-level facts.

theorem initStore_marking (M : Model) :
    (initStore M).marking = ⟨[], M.m0, []⟩ := by
  have h2 : (initStore M).marking
      = undoable markingReducer
          (undoable markingReducer ⟨[], [], []⟩ (StoreAction.init M))
          StoreAction.clearHistory := rfl
  have h1 : undoable markingReducer ⟨[], [], []⟩ (StoreAction.init M)
      = if M.m0 = ([] : Marking) then ⟨[], [], []⟩ else ⟨[[]], M.m0, []⟩ := rfl
  rw [h2, h1]
  by_cases h0 : M.m0 = ([] : Marking)
  · rw [if_pos h0]
    show (⟨[], [], []⟩ : History Marking) = ⟨[], M.m0, []⟩
    rw [h0]
  · rw [if_neg h0]
    rfl

theorem initStore_sequence (M : Model) :
    (initStore M).sequence = ⟨[], [], []⟩ := rfl

theorem storeUndoN_eq (n : Nat) (s : StoreState) :
    (storeUndoN n s).marking = hUndoN n s.marking
    ∧ (storeUndoN n s).sequence = hUndoN n s.sequence := by
  induction n generalizing s with
  | zero => exact ⟨rfl, rfl⟩
  | succ n ih =>
    rw [storeUndoN, hUndoN, hUndoN]
    have hm : (storeStep s StoreAction.undo).marking = hUndo s.marking := rfl
    have hs : (storeStep s StoreAction.undo).sequence = hUndo s.sequence := rfl
    rw [← hm, ← hs]
    exact ih (storeStep s StoreAction.undo)

theorem storeRedoN_eq (n : Nat) (s : StoreState) :
    (storeRedoN n s).marking = hRedoN n s.marking
    ∧ (storeRedoN n s).sequence = hRedoN n s.sequence := by
  induction n generalizing s with
  | zero => exact ⟨rfl, rfl⟩
  | succ n ih =>
    rw [storeRedoN, hRedoN, hRedoN]
    have hm : (storeStep s StoreAction.redo).marking = hRedo s.marking := rfl
    have hs : (storeStep s StoreAction.redo).sequence = hRedo s.sequence := rfl
    rw [← hm, ← hs]
    exact ih (storeStep s StoreAction.redo)

/-- Along a run of successful `fire` dispatches, both wrapped slices keep
the `HistInv` invariant, with the bound growing by the number of fires. -/
theorem fireMany_inv (sem : FireSemantics) {M : Model} {s s2 : StoreState}
    {ts : List Transition} {k : Nat}
    (hinv : HistInv M.m0 k s.marking ∧ HistInv ([] : FiredSeq) k s.sequence)
    (h : fireMany sem s ts = some s2) :
    HistInv M.m0 (k + ts.length) s2.marking
    ∧ HistInv ([] : FiredSeq) (k + ts.length) s2.sequence := by
  induction ts generalizing s k with
  | nil =>
    rw [fireMany] at h
    rcases Option.some.inj h with rfl
    simpa using hinv
  | cons t rest ih =>
    rw [fireMany] at h
    rcases hd : fireDispatch sem s t with ⟨res, s3⟩
    rw [hd] at h
    cases res with
    | error e => simp at h
    | ok u =>
      rcases hff : sem.fire t s.marking.present
          (chosenBinding sem t s.marking.present) with e2 | next
      · have : fireDispatch sem s t = (Except.error e2, s) := by
          unfold fireDispatch fireTransition
          rw [hff]
        rw [this] at hd
        exact absurd (congrArg Prod.fst hd) (by simp)
      · have hstep : fireDispatch sem s t
            = (Except.ok (), storeStep s (StoreAction.fire t
                (chosenBinding sem t s.marking.present) next)) := by
          unfold fireDispatch fireTransition
          rw [hff]
        rw [hstep] at hd
        have hs3 : s3 = storeStep s (StoreAction.fire t
            (chosenBinding sem t s.marking.present) next) :=
          (congrArg Prod.snd hd).symm
        have hinv2 : HistInv M.m0 (k + 1) s3.marking
            ∧ HistInv ([] : FiredSeq) (k + 1) s3.sequence := by
          rw [hs3]
          exact ⟨histInv_step markingReducer t _ next hinv.1,
            histInv_step sequenceReducer t _ next hinv.2⟩
        have hres := ih hinv2 h
        have hn : k + 1 + rest.length = k + (t :: rest).length := by
          simp [List.length_cons]
          omega
        rw [hn] at hres
        exact hres

/-- Claim C3: after Init and any sequence of n successful fires (under any fire
semantics), n undos return the present marking and fired-sequence to
their values right after Init, and n redos from there restore the values
after the last fire. -/
theorem c3_undo_redo_inverse (sem : FireSemantics) (M : Model)
    (ts : List Transition) (sn : StoreState)
    (h : fireMany sem (initStore M) ts = some sn) :
    (storeUndoN ts.length sn).marking.present = (initStore M).marking.present
    ∧ (storeUndoN ts.length sn).sequence.present
        = (initStore M).sequence.present
    ∧ (storeRedoN ts.length (storeUndoN ts.length sn)).marking.present
        = sn.marking.present
    ∧ (storeRedoN ts.length (storeUndoN ts.length sn)).sequence.present
        = sn.sequence.present := by
  have hinv0 : HistInv M.m0 0 (initStore M).marking
      ∧ HistInv ([] : FiredSeq) 0 (initStore M).sequence := by
    rw [initStore_marking, initStore_sequence]
    exact ⟨⟨rfl, Nat.le_refl 0, rfl⟩, ⟨rfl, Nat.le_refl 0, rfl⟩⟩
  have hinv := fireMany_inv sem hinv0 h
  rw [Nat.zero_add] at hinv
  have hm := histInv_travel hinv.1
  have hs := histInv_travel hinv.2
  rcases storeUndoN_eq ts.length sn with ⟨hum, hus⟩
  rcases storeRedoN_eq ts.length (storeUndoN ts.length sn) with ⟨hrm, hrs⟩
  refine ⟨?_, ?_, ?_, ?_⟩
  · rw [hum, initStore_marking]
    exact hm.1
  · rw [hus, initStore_sequence]
    exact hs.1
  · rw [hrm, hum]
    exact hm.2
  · rw [hrs, hus]
    exact hs.2

-- Concrete run for the C3 witness: one fire of `t1` from `m0 = {p: 1}`.

def c3M : Model := ⟨["p"], [⟨"t1", [("p", 1)], []⟩], [("p", 1)]⟩

def c3t1 : Transition := ⟨"t1", [("p", 1)], []⟩

def c3sn : StoreState :=
  ⟨c3M, ⟨[[("p", 1)]], [("p", 0)], []⟩,
   ⟨[[]], [[("transition", JsVal.str "t1"), ("binding", JsVal.bind none)]], []⟩⟩

/-- Witness for C3: one successful fire, one undo, one redo. -/
theorem c3_witness :
    (storeUndoN 1 c3sn).marking.present = (initStore c3M).marking.present
    ∧ (storeUndoN 1 c3sn).sequence.present = (initStore c3M).sequence.present
    ∧ (storeRedoN 1 (storeUndoN 1 c3sn)).marking.present
        = c3sn.marking.present
    ∧ (storeRedoN 1 (storeUndoN 1 c3sn)).sequence.present
        = c3sn.sequence.present :=
  c3_undo_redo_inverse defaultSem c3M [c3t1] c3sn rfl

/-- Claim C5: when the fire function fails, the facade's `fire` propagates the
error and dispatches nothing: the whole store state — both history
frames included — is returned unchanged. -/
theorem c5_fire_error_atomic (sem : FireSemantics) (s : StoreState)
    (t : Transition) (e : FireError)
    (h : sem.fire t s.marking.present (chosenBinding sem t s.marking.present)
        = Except.error e) :
    fireDispatch sem s t = (Except.error e, s) := by
  unfold fireDispatch fireTransition
  rw [h]

def c5M : Model := ⟨["p"], [⟨"t1", [("p", 1)], []⟩], [("p", 0)]⟩

def c5t : Transition := ⟨"t1", [("p", 1)], []⟩

/-- Witness for C5: firing an unfireable transition with the default
semantics leaves the store untouched and surfaces NotFireableError. -/
theorem c5_witness :
    fireDispatch defaultSem (initStore c5M) c5t
      = (Except.error FireError.notFireable, initStore c5M) :=
  c5_fire_error_atomic defaultSem (initStore c5M) c5t FireError.notFireable rfl

/-- Claim C6 counterexample: the `sequence` reducer appends the entry under the
JS key `transition`, not `transitionName` as the claim states; looking up
`transitionName` on the appended entry yields `undefined`. -/
theorem c6_counterexample :
    sequenceReducer [] (StoreAction.fire ⟨"t1", [("p", 1)], []⟩ none [("p", 0)])
      = [[("transition", JsVal.str "t1"), ("binding", JsVal.bind none)]]
    ∧ ¬ (sequenceReducer []
          (StoreAction.fire ⟨"t1", [("p", 1)], []⟩ none [("p", 0)])
        = [[("transitionName", JsVal.str "t1"), ("binding", JsVal.bind none)]])
    ∧ olook ((sequenceReducer []
          (StoreAction.fire ⟨"t1", [("p", 1)], []⟩ none [("p", 0)])).headD [])
        "transitionName" = none :=
  ⟨rfl, by decide, rfl⟩

/-- Claim C6 (amended): the `sequence` reducer yields `[]` on Init; on Fire it
appends exactly one entry, carrying the fired transition's name under the
key `transition` and the action's binding under the key `binding`; on any
other action it returns the state unchanged. -/
theorem c6_sequence_reducer (s : FiredSeq) (M : Model) (t : Transition)
    (b : Binding) (mk : Marking) :
    sequenceReducer s (StoreAction.init M) = []
    ∧ (∃ e, sequenceReducer s (StoreAction.fire t b mk) = s ++ [e]
        ∧ olook e "transition" = some (JsVal.str t.name)
        ∧ olook e "binding" = some (JsVal.bind b))
    ∧ sequenceReducer s StoreAction.undo = s
    ∧ sequenceReducer s StoreAction.redo = s
    ∧ sequenceReducer s StoreAction.clearHistory = s := by
  refine ⟨rfl,
    ⟨[("transition", JsVal.str t.name), ("binding", JsVal.bind b)],
      rfl, rfl, ?_⟩, rfl, rfl, rfl⟩
  show (if "transition" = "binding" then some (JsVal.str t.name)
    else olook [("binding", JsVal.bind b)] "binding") = some (JsVal.bind b)
  rw [if_neg (by decide)]
  rfl

/-- Claim C9: an action other than Undo/Redo/ClearHistory whose reduction
leaves the present value unchanged leaves the whole history frame
unchanged — no history entry — so a following undo behaves exactly as it
would have before the action. -/
theorem c9_noop_no_history {α : Type} [DecidableEq α]
    (R : α → StoreAction → α) (h : History α) (a : StoreAction)
    (hna : isHistoryAction a = false)
    (hfix : R h.present a = h.present) :
    undoable R h a = h
    ∧ undoable R (undoable R h a) StoreAction.undo
        = undoable R h StoreAction.undo := by
  have h1 : undoable R h a = h := by
    cases a with
    | undo => simp [isHistoryAction] at hna
    | redo => simp [isHistoryAction] at hna
    | clearHistory => simp [isHistoryAction] at hna
    | init m => simp [undoable, hfix]
    | fire t b mk => simp [undoable, hfix]
  exact ⟨h1, by rw [h1]⟩

def c9h : History Marking := ⟨[[("p", 1)]], [("p", 2)], []⟩

def c9a : StoreAction := StoreAction.fire ⟨"t", [], []⟩ none [("p", 2)]

/-- Witness for C9: a FIRE action whose next marking equals the present
marking creates no history entry. -/
theorem c9_witness :
    undoable markingReducer c9h c9a = c9h
    ∧ undoable markingReducer (undoable markingReducer c9h c9a)
        StoreAction.undo = undoable markingReducer c9h StoreAction.undo :=
  c9_noop_no_history markingReducer c9h c9a rfl rfl

-- C8: branch invalidation.

def c8M : Model :=
  ⟨["p"], [⟨"t1", [("p", 1)], []⟩, ⟨"t2", [("p", 1)], [("p", 1)]⟩],
   [("p", 1)]⟩

def c8t1 : Transition := ⟨"t1", [("p", 1)], []⟩

def c8t2 : Transition := ⟨"t2", [("p", 1)], [("p", 1)]⟩

/-- The store after Init, a successful fire of `t1`, one undo, and a
successful fire of `t2` (whose next marking equals the present one). -/
def c8s2 : StoreState :=
  (fireDispatch defaultSem
    (storeStep (fireDispatch defaultSem (initStore c8M) c8t1).2
      StoreAction.undo) c8t2).2

/-- Claim C8 counterexample: after Init, firing `t1`, one undo, and a successful
fire of a new transition `t2` that leaves the marking value unchanged,
the marking slice's future is NOT cleared and an immediately following
redo is NOT a no-op: it changes the present marking. -/
theorem c8_counterexample :
    (fireDispatch defaultSem (initStore c8M) c8t1).1 = Except.ok ()
    ∧ (fireDispatch defaultSem
        (storeStep (fireDispatch defaultSem (initStore c8M) c8t1).2
          StoreAction.undo) c8t2).1 = Except.ok ()
    ∧ ¬ (storeStep c8s2 StoreAction.redo = c8s2)
    ∧ ¬ ((storeStep c8s2 StoreAction.redo).marking.present
          = c8s2.marking.present) :=
  ⟨rfl, rfl, by decide, by decide⟩

/-- Claim C8 (amended): after any run — in particular after Init, successful
fires and k ≥ 1 undos — successfully firing a transition whose computed
next marking differs from the present marking clears the redo stack of
both wrapped slices: an immediately following redo is a no-op on the
whole store. -/
theorem c8_branch_invalidation (sem : FireSemantics) (s : StoreState)
    (t : Transition) (next : Marking)
    (hfire : sem.fire t s.marking.present
        (chosenBinding sem t s.marking.present) = Except.ok next)
    (hchange : ¬ next = s.marking.present) :
    (fireDispatch sem s t).1 = Except.ok ()
    ∧ storeStep (fireDispatch sem s t).2 StoreAction.redo
        = (fireDispatch sem s t).2 := by
  have hfd : fireDispatch sem s t
      = (Except.ok (), storeStep s (StoreAction.fire t
          (chosenBinding sem t s.marking.present) next)) := by
    unfold fireDispatch fireTransition
    rw [hfire]
  rw [hfd]
  refine ⟨rfl, ?_⟩
  have hm : (storeStep s (StoreAction.fire t
      (chosenBinding sem t s.marking.present) next)).marking
      = ⟨s.marking.past ++ [s.marking.present], next, []⟩ := by
    show undoable markingReducer s.marking (StoreAction.fire t
      (chosenBinding sem t s.marking.present) next) = _
    have hred : undoable markingReducer s.marking (StoreAction.fire t
        (chosenBinding sem t s.marking.present) next)
        = if next = s.marking.present then s.marking
          else ⟨s.marking.past ++ [s.marking.present], next, []⟩ := rfl
    rw [hred, if_neg hchange]
  have hneq : ¬ (s.sequence.present
      ++ [[("transition", JsVal.str t.name),
           ("binding", JsVal.bind (chosenBinding sem t s.marking.present))]]
      = s.sequence.present) := by
    intro hh
    have hlen := congrArg List.length hh
    simp at hlen
  have hs : (storeStep s (StoreAction.fire t
      (chosenBinding sem t s.marking.present) next)).sequence
      = ⟨s.sequence.past ++ [s.sequence.present],
         s.sequence.present
           ++ [[("transition", JsVal.str t.name),
                ("binding", JsVal.bind (chosenBinding sem t s.marking.present))]],
         []⟩ := by
    show undoable sequenceReducer s.sequence (StoreAction.fire t
      (chosenBinding sem t s.marking.present) next) = _
    have hred : undoable sequenceReducer s.sequence (StoreAction.fire t
        (chosenBinding sem t s.marking.present) next)
        = if s.sequence.present
            ++ [[("transition", JsVal.str t.name),
                 ("binding", JsVal.bind (chosenBinding sem t s.marking.present))]]
            = s.sequence.present
          then s.sequence
          else ⟨s.sequence.past ++ [s.sequence.present],
            s.sequence.present
              ++ [[("transition", JsVal.str t.name),
                   ("binding", JsVal.bind (chosenBinding sem t s.marking.present))]],
            []⟩ := rfl
    rw [hred, if_neg hneq]
  have hstep : storeStep (storeStep s (StoreAction.fire t
      (chosenBinding sem t s.marking.present) next)) StoreAction.redo
      = ⟨(storeStep s (StoreAction.fire t
            (chosenBinding sem t s.marking.present) next)).model,
         hRedo (storeStep s (StoreAction.fire t
            (chosenBinding sem t s.marking.present) next)).marking,
         hRedo (storeStep s (StoreAction.fire t
            (chosenBinding sem t s.marking.present) next)).sequence⟩ := rfl
  rw [hstep, hm, hs, hRedo_empty, hRedo_empty, ← hm, ← hs]

/-- Witness for the amended C8: firing `t1` (which changes the marking)
makes the following redo a no-op. -/
theorem c8_witness :
    (fireDispatch defaultSem (initStore c8M) c8t1).1 = Except.ok ()
    ∧ storeStep (fireDispatch defaultSem (initStore c8M) c8t1).2
        StoreAction.redo = (fireDispatch defaultSem (initStore c8M) c8t1).2 :=
  c8_branch_invalidation defaultSem (initStore c8M) c8t1 [("p", 0)] rfl
    (by decide)
